import Mathlib

/-!
Verification of the SVG rendering core of `funlib` (`src/rendering/svg.ts`):
the temporal speed-gradient synthesis pipeline (`toSvgBackgroundGradient`)
and the stroke geometry mapper (`toSvgLines`).

The embedding uses `ℚ` for the JavaScript `number` type.  All quantities the
verified claims touch (times in ms, positions, speeds, offsets) are exact
rational computations in the source runs considered here, so `ℚ` models the
IEEE-double run faithfully at every branch decision that matters; where JS
would produce `NaN`/`Infinity` (division by a zero duration) the embedding
totalises division as `x / 0 = 0`, and this is noted at the claim concerned.

Upstream collaborators (`actionsToLines`, `actionsToZigzag`,
`mergeLinesSpeed`, `speedToHexCached`) are out of scope and are treated as
producers of the input segment list, exactly as the specification's external
interface section prescribes.  The only piece of in-repository code used
here that is not under `src/` is the one-line helper `lerp` from
`src/utils/misc`, modelled from the spec below.
-/

/-- A keyframe: timestamp (ms) and normalized position, as in `FunAction`.
The source field `at` is a Lean keyword, embedded here as `at'`. -/
structure FunAction where
  at' : ℚ
  pos : ℚ
deriving DecidableEq

/-- A speed-tagged segment.  The source represents it as a tuple
`[a, b, speed]` (two `FunAction`s and a number); `lines` in the source are
lists of these. -/
structure Line where
  a : FunAction
  b : FunAction
  speed : ℚ
deriving DecidableEq

/-- Modelled from the spec: the helper `lerp` of `src/utils/misc` (that file
is not included under `src/`); per the spec the sub-segment endpoints are
"linearly interpolated between the original `start` and `end` Keyframes at
fractional offsets", i.e. `lerp x y t = x + (y - x) * t`. -/
def lerp (x y t : ℚ) : ℚ := x + (y - x) * t

/-- Source: `const round = (x: number) => +x.toFixed(2)` — rounding to two
decimal places.  All values rounded in the verified claims are nonnegative,
where `toFixed` rounds half away from zero, i.e. half up. -/
def round2 (x : ℚ) : ℚ := (Int.floor (x * 100 + 1 / 2) : ℚ) / 100

/-- Source: `Math.max(0, Math.min(1, ·))`, the offset clamp. -/
def clamp01 (x : ℚ) : ℚ := max 0 (min 1 x)

/-- The interval expander: body of the `flatMap` in `toSvgBackgroundGradient`
(svg.ts lines 179–194).  A segment of non-positive span yields `[]`; a span
below 2000 passes through; otherwise the segment is replaced by
`N = ~~((len - 500) / 1000)` interpolated sub-segments (`subN`).  `~~` is truncation
toward zero, which on the positive values reached in that branch is the
floor, embedded as `Int.floor`. -/
def subN (len : ℚ) : ℕ := (Int.floor ((len - 500) / 1000)).toNat

/-- One interpolated sub-segment (the body of the `Array.from` callback in
svg.ts lines 186–192): endpoint times and positions at fractions `i / N`
and `(i + 1) / N`, the speed inherited unchanged. -/
def subSeg (e : Line) (N : ℕ) (i : ℕ) : Line :=
  { a := ⟨lerp e.a.at' e.b.at' ((i : ℚ) / (N : ℚ)), lerp e.a.pos e.b.pos ((i : ℚ) / (N : ℚ))⟩
    b := ⟨lerp e.a.at' e.b.at' (((i : ℚ) + 1) / (N : ℚ)),
          lerp e.a.pos e.b.pos (((i : ℚ) + 1) / (N : ℚ))⟩
    speed := e.speed }

def expandLine (e : Line) : List Line :=
  let len := e.b.at' - e.a.at'
  if len ≤ 0 then []
  else if len < 2000 then [e]
  else (List.range (subN len)).map (subSeg e (subN len))

/-- The merged segment `[a, d, speed]` built by the interval merger
(svg.ts lines 199–200): duration-weighted average of the two speeds. -/
def mergedLine (x y : Line) : Line :=
  ⟨x.a, y.b,
    (x.speed * (x.b.at' - x.a.at') + y.speed * (y.b.at' - y.a.at')) /
      ((x.b.at' - x.a.at') + (y.b.at' - y.a.at'))⟩

/-- The interval merger loop of `toSvgBackgroundGradient` (svg.ts lines
196–203), embedded index-faithfully: at index `i`, if the pair at `i`, `i+1`
spans less than 1000ms it is spliced into one merged segment and the index
stays (the source does `i--` before the loop's `i++`), otherwise the index
advances. -/
def mergeLoop (lines : List Line) (i : ℕ) : List Line :=
  if h : i + 1 < lines.length then
    let x := lines.get ⟨i, by omega⟩
    let y := lines.get ⟨i + 1, h⟩
    if y.b.at' - x.a.at' < 1000 then
      mergeLoop (lines.take i ++ [mergedLine x y] ++ lines.drop (i + 2)) i
    else
      mergeLoop lines (i + 1)
  else lines
termination_by lines.length - i
decreasing_by
  · simp only [List.length_append, List.length_take, List.length_drop, List.length_cons,
      List.length_nil]
    omega
  · omega

/-- The interval merger: the loop of svg.ts lines 196–203 started at index 0. -/
def mergeLines (lines : List Line) : List Line := mergeLoop lines 0

/-- Recursive restatement of the merger loop, proved equal to `mergeLines`
below (`mergeLines_eq_mergeRec`); induction proofs use this form. -/
def mergeRec : List Line → List Line
  | [] => []
  | [x] => [x]
  | x :: y :: rest =>
    if y.b.at' - x.a.at' < 1000 then mergeRec (mergedLine x y :: rest)
    else x :: mergeRec (y :: rest)
termination_by l => l.length
decreasing_by all_goals simp +arith

/-- Helper for `dedupeBy`: processes the tail of the list, carrying the
element's predecessor in the ORIGINAL list (JavaScript's
`Array.prototype.filter` hands the callback the unfiltered array, so a
dropped element still serves as its successor's `a[i - 1]`). -/
def dedupeGo (sp : α → ℚ) (p : α) : List α → List α
  | [] => []
  | [y] => [y]
  | y :: z :: t =>
    if sp p = sp y ∧ sp y = sp z then dedupeGo sp y (z :: t)
    else y :: dedupeGo sp y (z :: t)

/-- The redundancy filter used twice in `toSvgBackgroundGradient` (svg.ts
lines 205–210 on segments keyed by their speed, lines 228–233 on stops):
`a.filter((e, i, a) => ...)` keeps element `i` when it has no neighbour at
`i - 1` or `i + 1` in the input array, or when its speed differs from one of
those two neighbours.  The first and last elements are always kept. -/
def dedupeBy (sp : α → ℚ) : List α → List α
  | [] => []
  | x :: l => x :: dedupeGo sp x l

/-- An intermediate gradient stop: a time (ms) and a speed, as the
anonymous `{ at, speed }` objects of the source. -/
structure Stop where
  at' : ℚ
  speed : ℚ
deriving DecidableEq

/-- Stop derivation (svg.ts lines 204–214): filter redundant segments, then
take each surviving segment's temporal midpoint with its speed. -/
def midStops (lines : List Line) : List Stop :=
  (dedupeBy Line.speed lines).map fun e => ⟨(e.a.at' + e.b.at') / 2, e.speed⟩

/-- Boundary synthesis (svg.ts lines 215–226): when segments exist, unshift
a stop at the first segment's start (preceded by a zero-speed fade-in stop
100ms earlier if the start lies beyond 100ms), and push a stop at the last
segment's end (followed by a zero-speed fade-out stop 100ms later if the
end lies more than 100ms before the total duration). -/
def withBoundary (lines : List Line) (durationMs : ℚ) (stops : List Stop) : List Stop :=
  match lines.head?, lines.getLast? with
  | some first, some last =>
    let s1 : List Stop := ⟨first.a.at', first.speed⟩ :: stops
    let s2 : List Stop := if 100 < first.a.at' then ⟨first.a.at' - 100, 0⟩ :: s1 else s1
    let s3 : List Stop := s2 ++ [⟨last.b.at', last.speed⟩]
    if last.b.at' < durationMs - 100 then s3 ++ [⟨last.b.at' + 100, 0⟩] else s3
  | _, _ => stops

/-- One output gradient stop: clamped, rounded offset fraction, the speed it
encodes, and the derived opacity (`1` when `speed ≥ 100`, the markup then
omits `stop-opacity`; otherwise `round(speed / 100)`).  The color token is
produced by the external `speedToHexCached` and carries no structure beyond
the speed, so it is represented by the speed itself. -/
structure GradientStop where
  offsetFraction : ℚ
  speed : ℚ
  opacity : ℚ
deriving DecidableEq

/-- The gradient synthesis `toSvgBackgroundGradient` (svg.ts lines 171–242),
from the segment list produced by the upstream
`actionsToLines(actionsToZigzag(...))` to the ordered gradient-stop values
of the emitted `<linearGradient>` markup.  There is no validation of
`durationMs` anywhere in the source function: offsets are computed as
`s.at / durationMs` and clamped; the embedding totalises the division
(`x / 0 = 0` in `ℚ`, where JS yields `NaN`/`Infinity`). -/
def toSvgBackgroundGradient (lines0 : List Line) (durationMs : ℚ) : List GradientStop :=
  let lines := mergeLines (lines0.flatMap expandLine)
  let stops := withBoundary lines durationMs (midStops lines)
  (dedupeBy Stop.speed stops).map fun s =>
    ⟨round2 (clamp01 (s.at' / durationMs)), s.speed,
      if 100 ≤ s.speed then 1 else round2 (s.speed / 100)⟩

/-- One output stroke command of `toSvgLines`: the rounded pixel endpoints
of the `M x1 y1 L x2 y2` path and the speed that selects its paint. -/
structure Stroke where
  x1 : ℚ
  y1 : ℚ
  x2 : ℚ
  y2 : ℚ
  speed : ℚ
deriving DecidableEq

/-- The paint-order relation of the final `lines.sort((a, b) => a[2] - b[2])`:
ascending speed. -/
def bySpeed (x y : Line) : Prop := x.speed ≤ y.speed

instance : DecidableRel bySpeed := fun x y => inferInstanceAs (Decidable (x.speed ≤ y.speed))

instance : IsTotal Line bySpeed := ⟨fun a b => le_total a.speed b.speed⟩

instance : IsTrans Line bySpeed := ⟨fun _ _ _ h₁ h₂ => le_trans h₁ h₂⟩

/-- The geometry mapper `toSvgLines` (svg.ts lines 145–165), from the
segment list produced upstream (`actionsToLines` then the out-of-scope
`mergeLinesSpeed`) to stroke commands.  `x = at / durationMs * (width -
2 * lineWidth) + lineWidth`, `y = (100 - pos) * (height - 2 * lineWidth) /
100 + lineWidth`, both rounded to two decimals; the command list is sorted
ascending by speed (`sort((a, b) => a[2] - b[2])`, embedded as a sort by
`bySpeed`). -/
def toSvgLines (lines : List Line) (durationMs width height lineWidth : ℚ) : List Stroke :=
  (List.insertionSort bySpeed lines).map fun l =>
    ⟨round2 (l.a.at' / durationMs * (width - 2 * lineWidth) + lineWidth),
      round2 ((100 - l.a.pos) * (height - 2 * lineWidth) / 100 + lineWidth),
      round2 (l.b.at' / durationMs * (width - 2 * lineWidth) + lineWidth),
      round2 ((100 - l.b.pos) * (height - 2 * lineWidth) / 100 + lineWidth),
      l.speed⟩

/-- No three consecutive elements share the same speed (under the given
speed projection): the output invariant of the redundancy filter. -/
def noTriple (sp : α → ℚ) : List α → Prop
  | x :: y :: z :: t => ¬(sp x = sp y ∧ sp y = sp z) ∧ noTriple sp (y :: z :: t)
  | _ => True

/-- Maximal runs of equal-speed elements, leaves first: `runs` splits a list
into its maximal blocks of consecutive elements sharing a speed. -/
def runs (sp : α → ℚ) : List α → List (List α)
  | [] => []
  | x :: l =>
    (x :: l.takeWhile fun y => sp y = sp x) ::
      runs sp (l.dropWhile fun y => sp y = sp x)
termination_by l => l.length
decreasing_by
  simp only [List.length_cons]
  exact Nat.lt_succ_of_le (List.dropWhile_sublist _).length_le

/-- Collapse of one maximal run under the redundancy filter: a singleton is
kept, a longer run is reduced to its first and last elements. -/
def collapseRun : List α → List α
  | [] => []
  | [x] => [x]
  | x :: y :: t => [x, (y :: t).getLast (List.cons_ne_nil y t)]

section DedupeLemmas

variable {α : Type*} (sp : α → ℚ)

theorem dedupeGo_nil (p : α) : dedupeGo sp p [] = [] := rfl

theorem dedupeGo_single (p y : α) : dedupeGo sp p [y] = [y] := rfl

theorem dedupeGo_cons₂ (p y z : α) (t : List α) :
    dedupeGo sp p (y :: z :: t) =
      if sp p = sp y ∧ sp y = sp z then dedupeGo sp y (z :: t)
      else y :: dedupeGo sp y (z :: t) := rfl

theorem dedupeGo_head_of_ne {p y : α} (h : sp p ≠ sp y) (t : List α) :
    dedupeGo sp p (y :: t) = y :: dedupeGo sp y t := by
  cases t with
  | nil => rfl
  | cons z t' =>
    rw [dedupeGo_cons₂, if_neg]
    rintro ⟨h1, -⟩
    exact h h1

theorem dedupeGo_ne_nil (p : α) (l : List α) (hl : l ≠ []) : dedupeGo sp p l ≠ [] := by
  induction l generalizing p with
  | nil => exact absurd rfl hl
  | cons y t ih =>
    cases t with
    | nil => simp [dedupeGo_single]
    | cons z t' =>
      rw [dedupeGo_cons₂]
      split
      · exact ih y (by simp)
      · simp

theorem dedupeGo_getLast? (p : α) (l : List α) :
    (dedupeGo sp p l).getLast? = l.getLast? := by
  induction l generalizing p with
  | nil => rfl
  | cons y t ih =>
    cases t with
    | nil => rfl
    | cons z t' =>
      rw [dedupeGo_cons₂]
      split
      · rw [ih y, List.getLast?_cons_cons]
      · rcases hm : dedupeGo sp y (z :: t') with - | ⟨w, m⟩
        · exact absurd hm (dedupeGo_ne_nil sp y _ (by simp))
        · rw [List.getLast?_cons_cons, ← hm, ih y, List.getLast?_cons_cons]

theorem dedupeGo_sublist (p : α) (l : List α) : (dedupeGo sp p l).Sublist l := by
  induction l generalizing p with
  | nil => exact List.Sublist.refl _
  | cons y t ih =>
    cases t with
    | nil => exact List.Sublist.refl _
    | cons z t' =>
      rw [dedupeGo_cons₂]
      split
      · exact (ih y).trans (List.sublist_cons_self _ _)
      · exact (ih y).cons₂ _

theorem dedupeBy_nil : dedupeBy sp ([] : List α) = [] := rfl

theorem dedupeBy_cons (x : α) (l : List α) :
    dedupeBy sp (x :: l) = x :: dedupeGo sp x l := rfl

theorem dedupeBy_sublist (l : List α) : (dedupeBy sp l).Sublist l := by
  cases l with
  | nil => exact List.Sublist.refl _
  | cons x l' => exact (dedupeGo_sublist sp x l').cons₂ _

theorem dedupeBy_head? (l : List α) : (dedupeBy sp l).head? = l.head? := by
  cases l <;> rfl

theorem dedupeBy_getLast? (l : List α) : (dedupeBy sp l).getLast? = l.getLast? := by
  cases l with
  | nil => rfl
  | cons x l' =>
    cases l' with
    | nil => rfl
    | cons y t =>
      rcases hm : dedupeGo sp x (y :: t) with - | ⟨w, m⟩
      · exact absurd hm (dedupeGo_ne_nil sp x _ (by simp))
      · rw [dedupeBy_cons, hm, List.getLast?_cons_cons, ← hm, dedupeGo_getLast?,
          List.getLast?_cons_cons]

theorem noTriple_nil : noTriple sp ([] : List α) := trivial

theorem noTriple_single (x : α) : noTriple sp [x] := trivial

theorem noTriple_pair (x y : α) : noTriple sp [x, y] := trivial

theorem noTriple_cons₃ (x y z : α) (t : List α) :
    noTriple sp (x :: y :: z :: t) ↔
      ¬(sp x = sp y ∧ sp y = sp z) ∧ noTriple sp (y :: z :: t) := Iff.rfl

theorem noTriple_tail {x : α} {l : List α} (h : noTriple sp (x :: l)) : noTriple sp l := by
  cases l with
  | nil => trivial
  | cons y t =>
    cases t with
    | nil => trivial
    | cons z t' => exact ((noTriple_cons₃ sp x y z t').mp h).2

theorem noTriple_cons_of_head? {p y : α} {m : List α}
    (h : noTriple sp (y :: m)) (hw : ∀ w ∈ m.head?, ¬(sp p = sp y ∧ sp y = sp w)) :
    noTriple sp (p :: y :: m) := by
  cases m with
  | nil => trivial
  | cons w m' => exact ⟨hw w rfl, h⟩

theorem noTriple_head_congr {p q : α} {m : List α} (h : sp p = sp q)
    (hq : noTriple sp (q :: m)) : noTriple sp (p :: m) := by
  cases m with
  | nil => trivial
  | cons y m' =>
    cases m' with
    | nil => trivial
    | cons z m'' =>
      refine ⟨fun hc => ?_, hq.2⟩
      exact hq.1 ⟨h.symm.trans hc.1, hc.2⟩

theorem noTriple_dedupeGo (p : α) (l : List α) : noTriple sp (p :: dedupeGo sp p l) := by
  induction l generalizing p with
  | nil => trivial
  | cons y t ih =>
    cases t with
    | nil => trivial
    | cons z t' =>
      rw [dedupeGo_cons₂]
      split
      · next hc =>
        exact noTriple_head_congr sp hc.1 (ih y)
      · next hc =>
        by_cases hpy : sp p = sp y
        · have hyz : sp y ≠ sp z := fun h => hc ⟨hpy, h⟩
          refine noTriple_cons_of_head? sp (ih y) fun w hw => ?_
          rw [dedupeGo_head_of_ne sp hyz] at hw
          simp only [List.head?_cons, Option.mem_def, Option.some.injEq] at hw
          subst hw
          rintro ⟨-, h2⟩
          exact hyz h2
        · exact noTriple_cons_of_head? sp (ih y) fun w _ => fun hc' => hpy hc'.1

theorem noTriple_dedupeBy (l : List α) : noTriple sp (dedupeBy sp l) := by
  cases l with
  | nil => trivial
  | cons x l' => exact noTriple_dedupeGo sp x l'

theorem dedupeGo_eq_of_noTriple {p : α} {l : List α} (h : noTriple sp (p :: l)) :
    dedupeGo sp p l = l := by
  induction l generalizing p with
  | nil => rfl
  | cons y t ih =>
    cases t with
    | nil => rfl
    | cons z t' =>
      rw [dedupeGo_cons₂, if_neg h.1, ih (noTriple_tail sp h)]

theorem dedupeBy_eq_of_noTriple {l : List α} (h : noTriple sp l) : dedupeBy sp l = l := by
  cases l with
  | nil => rfl
  | cons x l' => rw [dedupeBy_cons, dedupeGo_eq_of_noTriple sp h]

theorem dedupeBy_idempotent (l : List α) :
    dedupeBy sp (dedupeBy sp l) = dedupeBy sp l :=
  dedupeBy_eq_of_noTriple sp (noTriple_dedupeBy sp l)

theorem noTriple_map {β : Type*} (sp2 : β → ℚ) (f : α → β) (hf : ∀ x, sp2 (f x) = sp x) :
    ∀ l : List α, noTriple sp l → noTriple sp2 (l.map f)
  | [], _ => trivial
  | [_], _ => trivial
  | [_, _], _ => trivial
  | x :: y :: z :: t, h =>
    ⟨fun hc => h.1 ⟨by rw [← hf x, ← hf y]; exact hc.1, by rw [← hf y, ← hf z]; exact hc.2⟩,
      noTriple_map sp2 f hf (y :: z :: t) h.2⟩

end DedupeLemmas

section MergeLemmas

theorem mergeLoop_stop (lines : List Line) (i : ℕ) (h : ¬ i + 1 < lines.length) :
    mergeLoop lines i = lines := by
  rw [mergeLoop]
  simp [h]

theorem mergeLoop_shift (z : Line) (l : List Line) (i : ℕ) :
    mergeLoop (z :: l) (i + 1) = z :: mergeLoop l i := by
  by_cases h : i + 1 < l.length
  · have h2 : i + 1 + 1 < (z :: l).length := by simpa using Nat.succ_lt_succ h
    conv_lhs => rw [mergeLoop]
    rw [dif_pos h2]
    conv_rhs => rw [mergeLoop]
    rw [dif_pos h]
    simp only [List.get_eq_getElem, List.getElem_cons_succ, List.take_succ_cons,
      List.drop_succ_cons, List.cons_append]
    split
    · exact mergeLoop_shift z _ i
    · exact mergeLoop_shift z l (i + 1)
  · rw [mergeLoop_stop _ _ (by simpa using fun hh => h (Nat.lt_of_succ_lt_succ hh)),
      mergeLoop_stop _ _ h]
termination_by l.length - i
decreasing_by
  all_goals try simp only [List.length_append, List.length_take, List.length_cons,
    List.length_drop, List.length_nil]
  all_goals omega

theorem mergeLines_nil : mergeLines [] = [] := by
  unfold mergeLines
  exact mergeLoop_stop [] 0 (by simp)

theorem mergeLines_single (x : Line) : mergeLines [x] = [x] := by
  unfold mergeLines
  exact mergeLoop_stop [x] 0 (by simp)

theorem mergeLines_cons₂ (x y : Line) (rest : List Line) :
    mergeLines (x :: y :: rest) =
      if y.b.at' - x.a.at' < 1000 then mergeLines (mergedLine x y :: rest)
      else x :: mergeLines (y :: rest) := by
  unfold mergeLines
  rw [mergeLoop, dif_pos (by simp)]
  simp only [List.get_eq_getElem, List.getElem_cons_zero, List.getElem_cons_succ,
    List.take_zero, List.drop_succ_cons, List.drop_zero, List.nil_append,
    List.singleton_append]
  split
  · rfl
  · exact mergeLoop_shift x (y :: rest) 0

theorem mergeLines_eq_mergeRec (l : List Line) : mergeLines l = mergeRec l := by
  match l with
  | [] => rw [mergeLines_nil, mergeRec]
  | [x] => rw [mergeLines_single, mergeRec]
  | x :: y :: rest =>
    rw [mergeLines_cons₂, mergeRec]
    split
    · exact mergeLines_eq_mergeRec (mergedLine x y :: rest)
    · rw [mergeLines_eq_mergeRec (y :: rest)]
termination_by l.length
decreasing_by
  · simp
  · simp

end MergeLemmas

section RunsLemmas

variable {α : Type*} (sp : α → ℚ)

theorem head?_dropWhile_false (p : α → Bool) (l : List α) :
    ∀ h ∈ (l.dropWhile p).head?, p h = false := by
  induction l with
  | nil => simp
  | cons a l ih =>
    rw [List.dropWhile_cons]
    split
    · exact ih
    · next hpa =>
      intro h hh
      simp only [List.head?_cons, Option.mem_def, Option.some.injEq] at hh
      subst hh
      exact Bool.not_eq_true _ ▸ hpa

theorem runs_nil : runs sp ([] : List α) = [] := by
  rw [runs]

theorem runs_cons (x : α) (l : List α) :
    runs sp (x :: l) =
      (x :: l.takeWhile fun y => sp y = sp x) ::
        runs sp (l.dropWhile fun y => sp y = sp x) := by
  rw [runs]

theorem collapseRun_cons (x : α) (t : List α) :
    collapseRun (x :: t) = x :: t.getLast?.toList := by
  cases t with
  | nil => rfl
  | cons y t' =>
    rw [collapseRun, List.getLast?_eq_getLast (y :: t') (List.cons_ne_nil y t')]
    rfl

theorem dedupeGo_run : ∀ (t : List α) (x : α) (d : List α),
    (∀ y ∈ t, sp y = sp x) → (∀ h ∈ d.head?, sp h ≠ sp x) →
    dedupeGo sp x (t ++ d) = t.getLast?.toList ++ dedupeBy sp d
  | [], x, d, _, hd => by
    cases d with
    | nil => rfl
    | cons h0 d' =>
      rw [List.nil_append, dedupeGo_head_of_ne sp (fun hx => hd h0 rfl hx.symm) d']
      rfl
  | [y], x, d, ht, hd => by
    cases d with
    | nil => rfl
    | cons h0 d' =>
      have h1 : sp y = sp x := ht y (by simp)
      have h2 : sp h0 ≠ sp x := hd h0 rfl
      rw [List.singleton_append, dedupeGo_cons₂, if_neg, dedupeGo_head_of_ne sp
        (fun hc => h2 (hc.symm.trans h1)) d']
      · rfl
      · rintro ⟨-, hyh⟩
        exact h2 (hyh.symm.trans h1)
  | y :: z :: t'', x, d, ht, hd => by
    have hy : sp y = sp x := ht y (by simp)
    have hz : sp z = sp x := ht z (by simp)
    have him : ∀ w ∈ z :: t'', sp w = sp y :=
      fun w hw => (ht w (List.mem_cons_of_mem y hw)).trans hy.symm
    have hdm : ∀ h ∈ d.head?, sp h ≠ sp y :=
      fun h hh hc => hd h hh (hc.trans hy)
    rw [List.cons_append, List.cons_append, dedupeGo_cons₂,
      if_pos ⟨hy.symm, hy.trans hz.symm⟩, ← List.cons_append,
      dedupeGo_run (z :: t'') y d him hdm, List.getLast?_cons_cons]

theorem noTriple_dropWhile (p : α → Bool) (l : List α) (h : noTriple sp l) :
    noTriple sp (l.dropWhile p) := by
  induction l with
  | nil => trivial
  | cons a l ih =>
    rw [List.dropWhile_cons]
    split
    · exact ih (noTriple_tail sp h)
    · exact h

theorem dedupeBy_eq_runs : ∀ l : List α,
    dedupeBy sp l = ((runs sp l).map collapseRun).flatten
  | [] => by rw [runs_nil]; rfl
  | x :: l' => by
    have h1 : ∀ y ∈ l'.takeWhile fun y => sp y = sp x, sp y = sp x := by
      intro y hy
      have := List.mem_takeWhile_imp hy
      simpa using this
    have h2 : ∀ h ∈ (l'.dropWhile fun y => sp y = sp x).head?, sp h ≠ sp x := by
      intro h hh
      have := head?_dropWhile_false _ l' h hh
      simpa using this
    have hrun := dedupeGo_run sp (l'.takeWhile fun y => sp y = sp x) x
      (l'.dropWhile fun y => sp y = sp x) h1 h2
    rw [List.takeWhile_append_dropWhile] at hrun
    rw [runs_cons, List.map_cons, List.flatten_cons, collapseRun_cons,
      ← dedupeBy_eq_runs (l'.dropWhile fun y => sp y = sp x), dedupeBy_cons, hrun,
      List.cons_append]
termination_by l => l.length
decreasing_by
  simp only [List.length_cons]
  exact Nat.lt_succ_of_le (List.dropWhile_sublist _).length_le

theorem runs_length_le_two : ∀ l : List α, noTriple sp l →
    List.Forall (fun r => r.length ≤ 2) (runs sp l)
  | [], _ => by rw [runs_nil]; trivial
  | x :: l', h => by
    rw [runs_cons, List.forall_cons]
    refine ⟨?_, runs_length_le_two (l'.dropWhile fun y => sp y = sp x)
      (noTriple_dropWhile sp _ _ (noTriple_tail sp h))⟩
    rcases hT : l'.takeWhile fun y => sp y = sp x with - | ⟨a, t1⟩
    · simp
    · rcases t1 with - | ⟨b, t2⟩
      · simp
      · exfalso
        have h0 := List.takeWhile_append_dropWhile (fun y => decide (sp y = sp x)) l'
        rw [hT] at h0
        have hamem : a ∈ l'.takeWhile fun y => sp y = sp x := by
          rw [hT]
          exact List.mem_cons_self a (b :: t2)
        have hbmem : b ∈ l'.takeWhile fun y => sp y = sp x := by
          rw [hT]
          exact List.mem_cons_of_mem a (List.mem_cons_self b t2)
        have ha : sp a = sp x := by simpa using List.mem_takeWhile_imp hamem
        have hb : sp b = sp x := by simpa using List.mem_takeWhile_imp hbmem
        rw [← h0] at h
        exact h.1 ⟨ha.symm, ha.trans hb.symm⟩
termination_by l => l.length
decreasing_by
  simp only [List.length_cons]
  exact Nat.lt_succ_of_le (List.dropWhile_sublist _).length_le

end RunsLemmas

section OrderLemmas

theorem round2_eval (x : ℚ) (n : ℤ) (h1 : (n : ℚ) ≤ x * 100 + 1 / 2)
    (h2 : x * 100 + 1 / 2 < (n : ℚ) + 1) : round2 x = (n : ℚ) / 100 := by
  rw [round2, Int.floor_eq_iff.mpr ⟨h1, by linarith⟩]

theorem round2_mono {x y : ℚ} (h : x ≤ y) : round2 x ≤ round2 y := by
  unfold round2
  have hf : Int.floor (x * 100 + 1 / 2) ≤ Int.floor (y * 100 + 1 / 2) :=
    Int.floor_le_floor (by linarith)
  have h100 : (0 : ℚ) < 100 := by norm_num
  exact (div_le_div_iff_of_pos_right h100).mpr (by exact_mod_cast hf)

theorem clamp01_mono {x y : ℚ} (h : x ≤ y) : clamp01 x ≤ clamp01 y :=
  max_le_max le_rfl (min_le_min le_rfl h)

theorem offset_mono {d : ℚ} (hd : 0 < d) {x y : ℚ} (h : x ≤ y) :
    round2 (clamp01 (x / d)) ≤ round2 (clamp01 (y / d)) :=
  round2_mono (clamp01_mono ((div_le_div_iff_of_pos_right hd).mpr h))

theorem lerp_zero (x y : ℚ) : lerp x y 0 = x := by
  unfold lerp
  ring

theorem lerp_one (x y : ℚ) : lerp x y 1 = y := by
  unfold lerp
  ring

theorem lerp_mono (x y : ℚ) (hxy : x ≤ y) {s t : ℚ} (hst : s ≤ t) :
    lerp x y s ≤ lerp x y t := by
  unfold lerp
  have := mul_le_mul_of_nonneg_left hst (sub_nonneg.mpr hxy)
  linarith

theorem div_nat_mono (i j N : ℕ) (h : i ≤ j) : ((i : ℚ) / (N : ℚ)) ≤ ((j : ℚ) / (N : ℚ)) := by
  rcases Nat.eq_zero_or_pos N with hN | hN
  · subst hN
    simp
  · have hN' : (0 : ℚ) < (N : ℚ) := by exact_mod_cast hN
    exact (div_le_div_iff_of_pos_right hN').mpr (by exact_mod_cast h)

theorem subN_pos {len : ℚ} (h : 2000 ≤ len) : 0 < subN len := by
  have h1 : (1 : ℤ) ≤ Int.floor ((len - 500) / 1000) := by
    rw [Int.le_floor]
    rw [le_div_iff₀ (by norm_num : (0 : ℚ) < 1000)]
    push_cast
    linarith
  unfold subN
  omega

end OrderLemmas

section RcLemmas

/-- The containment-chaining relation used to track temporal order through
the pipeline: the left segment is well-formed and ends no later than the
right one starts. -/
def Rc (e f : Line) : Prop := e.a.at' ≤ e.b.at' ∧ e.b.at' ≤ f.a.at'

theorem Rc.trans' {e f g : Line} (h1 : Rc e f) (h2 : Rc f g) : Rc e g :=
  ⟨h1.1, h1.2.trans (h2.1.trans h2.2)⟩

instance : IsTrans Line Rc := ⟨fun _ _ _ => Rc.trans'⟩

/-- The claim C8 hypothesis: segments are well formed (`start.at ≤ end.at`)
and listed in ascending time order (each ends no later than the next
starts), as the upstream transforms produce them. -/
def TimeOrdered (l : List Line) : Prop :=
  (∀ e ∈ l, e.a.at' ≤ e.b.at') ∧ l.Chain' fun e f => e.b.at' ≤ f.a.at'

theorem timeOrdered_chain'_Rc : ∀ l : List Line, TimeOrdered l → l.Chain' Rc
  | [], _ => List.chain'_nil
  | x :: l, ⟨hg, hc⟩ => by
    rw [List.chain'_cons'] at hc ⊢
    refine ⟨fun y hy => ⟨hg x (List.mem_cons_self x l), hc.1 y hy⟩, ?_⟩
    exact timeOrdered_chain'_Rc l ⟨fun e he => hg e (List.mem_cons_of_mem _ he), hc.2⟩

theorem timeOrdered_pairwise {l : List Line} (h : TimeOrdered l) : l.Pairwise Rc :=
  List.chain'_iff_pairwise.mp (timeOrdered_chain'_Rc l h)

end RcLemmas

section ExpandLemmas

theorem expandLine_nonpos (e : Line) (h0 : e.b.at' - e.a.at' ≤ 0) : expandLine e = [] := by
  simp only [expandLine, if_pos h0]

theorem expandLine_pass (e : Line) (h0 : ¬e.b.at' - e.a.at' ≤ 0)
    (h1 : e.b.at' - e.a.at' < 2000) : expandLine e = [e] := by
  simp only [expandLine, if_neg h0, if_pos h1]

theorem expandLine_split (e : Line) (h0 : ¬e.b.at' - e.a.at' ≤ 0)
    (h1 : ¬e.b.at' - e.a.at' < 2000) :
    expandLine e =
      (List.range (subN (e.b.at' - e.a.at'))).map (subSeg e (subN (e.b.at' - e.a.at'))) := by
  simp only [expandLine, if_neg h0, if_neg h1]

theorem subSeg_good (e : Line) (hab : e.a.at' ≤ e.b.at') (N i : ℕ) :
    (subSeg e N i).a.at' ≤ (subSeg e N i).b.at' :=
  lerp_mono _ _ hab (by exact_mod_cast div_nat_mono i (i + 1) N (Nat.le_succ i))

theorem subSeg_bound_left (e : Line) (hab : e.a.at' ≤ e.b.at') (N i : ℕ) :
    e.a.at' ≤ (subSeg e N i).a.at' := by
  have h := lerp_mono e.a.at' e.b.at' hab
    (show (0 : ℚ) ≤ (i : ℚ) / (N : ℚ) from div_nonneg (by positivity) (by positivity))
  rw [lerp_zero] at h
  exact h

theorem subSeg_bound_right (e : Line) (hab : e.a.at' ≤ e.b.at') (N : ℕ) (hN : 0 < N)
    (i : ℕ) (hi : i < N) : (subSeg e N i).b.at' ≤ e.b.at' := by
  have hfrac : ((i : ℚ) + 1) / (N : ℚ) ≤ 1 := by
    rw [div_le_one (by exact_mod_cast hN)]
    exact_mod_cast Nat.succ_le_of_lt hi
  have h := lerp_mono e.a.at' e.b.at' hab hfrac
  rw [lerp_one] at h
  exact h

theorem expandLine_good (e : Line) : ∀ x ∈ expandLine e, x.a.at' ≤ x.b.at' := by
  intro x hx
  by_cases h0 : e.b.at' - e.a.at' ≤ 0
  · rw [expandLine_nonpos e h0] at hx
    simp at hx
  · have hab : e.a.at' ≤ e.b.at' := by linarith [not_le.mp h0]
    by_cases h1 : e.b.at' - e.a.at' < 2000
    · rw [expandLine_pass e h0 h1] at hx
      simp only [List.mem_singleton] at hx
      subst hx
      exact hab
    · rw [expandLine_split e h0 h1] at hx
      simp only [List.mem_map, List.mem_range] at hx
      obtain ⟨i, -, rfl⟩ := hx
      exact subSeg_good e hab _ i

theorem expandLine_bounds (e : Line) :
    ∀ x ∈ expandLine e, e.a.at' ≤ x.a.at' ∧ x.b.at' ≤ e.b.at' := by
  intro x hx
  by_cases h0 : e.b.at' - e.a.at' ≤ 0
  · rw [expandLine_nonpos e h0] at hx
    simp at hx
  · have hab : e.a.at' ≤ e.b.at' := by linarith [not_le.mp h0]
    by_cases h1 : e.b.at' - e.a.at' < 2000
    · rw [expandLine_pass e h0 h1] at hx
      simp only [List.mem_singleton] at hx
      subst hx
      exact ⟨le_refl _, le_refl _⟩
    · rw [expandLine_split e h0 h1] at hx
      simp only [List.mem_map, List.mem_range] at hx
      obtain ⟨i, hi, rfl⟩ := hx
      exact ⟨subSeg_bound_left e hab _ i,
        subSeg_bound_right e hab _ (subN_pos (by linarith [not_lt.mp h1])) i hi⟩

theorem expandLine_pairwise (e : Line) : (expandLine e).Pairwise Rc := by
  by_cases h0 : e.b.at' - e.a.at' ≤ 0
  · rw [expandLine_nonpos e h0]
    exact List.Pairwise.nil
  · have hab : e.a.at' ≤ e.b.at' := by linarith [not_le.mp h0]
    by_cases h1 : e.b.at' - e.a.at' < 2000
    · rw [expandLine_pass e h0 h1]
      exact List.pairwise_singleton _ _
    · rw [expandLine_split e h0 h1]
      rw [List.pairwise_map]
      refine (List.pairwise_lt_range _).imp ?_
      intro i j hij
      refine ⟨subSeg_good e hab _ i, ?_⟩
      show lerp e.a.at' e.b.at' _ ≤ lerp e.a.at' e.b.at' _
      apply lerp_mono _ _ hab
      exact_mod_cast div_nat_mono (i + 1) j _ hij

theorem expand_flat_good (l : List Line) :
    ∀ x ∈ l.flatMap expandLine, x.a.at' ≤ x.b.at' := by
  intro x hx
  rw [List.mem_flatMap] at hx
  obtain ⟨e, -, hx⟩ := hx
  exact expandLine_good e x hx

theorem expand_flat_pairwise (l : List Line) (hp : l.Pairwise Rc) :
    (l.flatMap expandLine).Pairwise Rc := by
  rw [List.pairwise_flatMap]
  refine ⟨fun e _ => expandLine_pairwise e, hp.imp ?_⟩
  intro e f hef x hx y hy
  exact ⟨expandLine_good e x hx,
    ((expandLine_bounds e x hx).2.trans (hef.2.trans (expandLine_bounds f y hy).1))⟩

end ExpandLemmas

section MergeOrderLemmas

theorem mergeRec_ne_nil : ∀ l : List Line, l ≠ [] → mergeRec l ≠ []
  | [], h => absurd rfl h
  | [x], _ => by
    rw [mergeRec]
    simp
  | x :: y :: rest, _ => by
    rw [mergeRec]
    split
    · exact mergeRec_ne_nil (mergedLine x y :: rest) (by simp)
    · simp
termination_by l => l.length
decreasing_by all_goals simp +arith

theorem mergeRec_mem_a : ∀ l : List Line, ∀ z ∈ mergeRec l, ∃ u ∈ l, z.a = u.a
  | [], z, hz => by
    rw [mergeRec] at hz
    simp at hz
  | [x], z, hz => by
    rw [mergeRec] at hz
    simp only [List.mem_singleton] at hz
    exact ⟨x, by simp, by rw [hz]⟩
  | x :: y :: rest, z, hz => by
    rw [mergeRec] at hz
    split at hz
    · obtain ⟨u, hu, hua⟩ := mergeRec_mem_a (mergedLine x y :: rest) z hz
      rcases List.mem_cons.mp hu with rfl | hu
      · exact ⟨x, by simp, hua⟩
      · exact ⟨u, by simp [hu], hua⟩
    · rcases List.mem_cons.mp hz with rfl | hz
      · exact ⟨z, by simp, rfl⟩
      · obtain ⟨u, hu, hua⟩ := mergeRec_mem_a (y :: rest) z hz
        exact ⟨u, List.mem_cons_of_mem x hu, hua⟩
termination_by l => l.length
decreasing_by all_goals simp +arith

theorem mergeRec_head?_a : ∀ l : List Line, (mergeRec l).head?.map Line.a = l.head?.map Line.a
  | [] => by rw [mergeRec]
  | [x] => by rw [mergeRec]
  | x :: y :: rest => by
    rw [mergeRec]
    split
    · rw [mergeRec_head?_a (mergedLine x y :: rest)]
      rfl
    · rfl
termination_by l => l.length
decreasing_by all_goals simp +arith

theorem mergeRec_getLast?_b :
    ∀ l : List Line, (mergeRec l).getLast?.map Line.b = l.getLast?.map Line.b
  | [] => by rw [mergeRec]
  | [x] => by rw [mergeRec]
  | x :: y :: rest => by
    rw [mergeRec]
    split
    · rw [mergeRec_getLast?_b (mergedLine x y :: rest)]
      cases rest with
      | nil => rfl
      | cons r rest' => simp
    · rcases hm : mergeRec (y :: rest) with - | ⟨w, m⟩
      · exact absurd hm (mergeRec_ne_nil (y :: rest) (by simp))
      · rw [List.getLast?_cons_cons, ← hm, mergeRec_getLast?_b (y :: rest),
          List.getLast?_cons_cons]
termination_by l => l.length
decreasing_by all_goals simp +arith

theorem mergeRec_good_pairwise :
    ∀ l : List Line, (∀ e ∈ l, e.a.at' ≤ e.b.at') → l.Pairwise Rc →
      (∀ e ∈ mergeRec l, e.a.at' ≤ e.b.at') ∧ (mergeRec l).Pairwise Rc
  | [], _, _ => by
    rw [mergeRec]
    exact ⟨by simp, List.Pairwise.nil⟩
  | [x], hg, _ => by
    rw [mergeRec]
    exact ⟨hg, List.pairwise_singleton _ _⟩
  | x :: y :: rest, hg, hp => by
    rw [mergeRec]
    split
    · have hxy : Rc x y := (List.pairwise_cons.mp hp).1 y (by simp)
      have hyg : y.a.at' ≤ y.b.at' := hg y (by simp)
      have hrest : rest.Pairwise Rc := (List.pairwise_cons.mp (List.pairwise_cons.mp hp).2).2
      have hm_good : (mergedLine x y).a.at' ≤ (mergedLine x y).b.at' :=
        hxy.1.trans (hxy.2.trans hyg)
      have hm_rel : ∀ z ∈ rest, Rc (mergedLine x y) z := by
        intro z hz
        have hyz : Rc y z := (List.pairwise_cons.mp (List.pairwise_cons.mp hp).2).1 z hz
        exact ⟨hm_good, hyz.2⟩
      refine mergeRec_good_pairwise (mergedLine x y :: rest) ?_
        (List.pairwise_cons.mpr ⟨hm_rel, hrest⟩)
      intro e he
      rcases List.mem_cons.mp he with rfl | he
      · exact hm_good
      · exact hg e (by simp [he])
    · have h1 := mergeRec_good_pairwise (y :: rest)
        (fun e he => hg e (List.mem_cons_of_mem _ he)) (List.pairwise_cons.mp hp).2
      refine ⟨?_, List.pairwise_cons.mpr ⟨?_, h1.2⟩⟩
      · intro e he
        rcases List.mem_cons.mp he with rfl | he
        · exact hg e (by simp)
        · exact h1.1 e he
      · intro z hz
        obtain ⟨u, hu, hua⟩ := mergeRec_mem_a (y :: rest) z hz
        have hxu : Rc x u := (List.pairwise_cons.mp hp).1 u hu
        exact ⟨hg x (by simp), hua ▸ hxu.2⟩
termination_by l => l.length
decreasing_by all_goals simp +arith

end MergeOrderLemmas

section StopOrderLemmas

/-- Temporal order on intermediate stops. -/
def stopLE (s t : Stop) : Prop := s.at' ≤ t.at'

instance : IsTrans Stop stopLE := ⟨fun _ _ _ h1 h2 => le_trans h1 h2⟩

theorem pairwise_head_le {l : List Line} (hp : l.Pairwise Rc) {f : Line}
    (hf : l.head? = some f) : ∀ u ∈ l, f.a.at' ≤ u.a.at' := by
  cases l with
  | nil => simp at hf
  | cons x rest =>
    simp only [List.head?_cons, Option.some.injEq] at hf
    subst hf
    intro u hu
    rcases List.mem_cons.mp hu with rfl | hu
    · exact le_refl _
    · have := (List.pairwise_cons.mp hp).1 u hu
      exact this.1.trans this.2

theorem pairwise_le_last :
    ∀ l : List Line, (∀ e ∈ l, e.a.at' ≤ e.b.at') → l.Pairwise Rc →
      ∀ g : Line, l.getLast? = some g → ∀ u ∈ l, u.b.at' ≤ g.b.at'
  | [], _, _, g, hgl => by simp at hgl
  | x :: rest, hg, hp, g, hgl => by
    cases rest with
    | nil =>
      simp only [List.getLast?_singleton, Option.some.injEq] at hgl
      subst hgl
      intro u hu
      rcases List.mem_singleton.mp hu with rfl
      exact le_refl _
    | cons r rest' =>
      rw [List.getLast?_cons_cons] at hgl
      intro u hu
      rcases List.mem_cons.mp hu with rfl | hu
      · have hmem : g ∈ r :: rest' := List.mem_of_getLast?_eq_some hgl
        have hxg : Rc u g := (List.pairwise_cons.mp hp).1 g hmem
        have hgood : g.a.at' ≤ g.b.at' := hg g (List.mem_cons_of_mem _ hmem)
        exact hxg.2.trans (hgood.trans (le_refl _)) |>.trans (le_refl _) |>.trans (le_refl _)
      · exact pairwise_le_last (r :: rest')
          (fun e he => hg e (List.mem_cons_of_mem _ he))
          (List.pairwise_cons.mp hp).2 g hgl u hu

theorem midStops_pairwise (lines : List Line) (hg : ∀ e ∈ lines, e.a.at' ≤ e.b.at')
    (hp : lines.Pairwise Rc) : (midStops lines).Pairwise stopLE := by
  unfold midStops
  rw [List.pairwise_map]
  have hd : (dedupeBy Line.speed lines).Pairwise Rc :=
    hp.sublist (dedupeBy_sublist Line.speed lines)
  refine hd.imp_of_mem ?_
  intro e f he hf hef
  have hfg : f.a.at' ≤ f.b.at' :=
    hg f ((dedupeBy_sublist Line.speed lines).subset hf)
  show (e.a.at' + e.b.at') / 2 ≤ (f.a.at' + f.b.at') / 2
  have h1 := hef.1
  have h2 := hef.2
  linarith

theorem midStops_bounds (lines : List Line) (hg : ∀ e ∈ lines, e.a.at' ≤ e.b.at')
    (hp : lines.Pairwise Rc) (f g : Line) (hf : lines.head? = some f)
    (hgl : lines.getLast? = some g) :
    ∀ s ∈ midStops lines, f.a.at' ≤ s.at' ∧ s.at' ≤ g.b.at' := by
  intro s hs
  unfold midStops at hs
  rw [List.mem_map] at hs
  obtain ⟨u, hu, rfl⟩ := hs
  have humem : u ∈ lines := (dedupeBy_sublist Line.speed lines).subset hu
  have hug : u.a.at' ≤ u.b.at' := hg u humem
  have h1 : f.a.at' ≤ u.a.at' := pairwise_head_le hp hf u humem
  have h2 : u.b.at' ≤ g.b.at' := pairwise_le_last lines hg hp g hgl u humem
  constructor
  · show f.a.at' ≤ (u.a.at' + u.b.at') / 2
    linarith
  · show (u.a.at' + u.b.at') / 2 ≤ g.b.at'
    linarith

theorem withBoundary_eq (lines : List Line) (f g : Line) (hf : lines.head? = some f)
    (hg : lines.getLast? = some g) (d : ℚ) (stops : List Stop) :
    withBoundary lines d stops =
      (if 100 < f.a.at' then [⟨f.a.at' - 100, 0⟩] else []) ++
        (⟨f.a.at', f.speed⟩ :: stops ++ [⟨g.b.at', g.speed⟩]) ++
        (if g.b.at' < d - 100 then [⟨g.b.at' + 100, 0⟩] else []) := by
  unfold withBoundary
  rw [hf, hg]
  split_ifs with h1 h2 h2 <;> simp [h1, h2]

end StopOrderLemmas

section BoundaryLemmas

theorem withBoundary_head? (lines : List Line) (f g : Line) (hf : lines.head? = some f)
    (hg : lines.getLast? = some g) (d : ℚ) (stops : List Stop) :
    (withBoundary lines d stops).head? =
      some (if 100 < f.a.at' then ⟨f.a.at' - 100, 0⟩ else ⟨f.a.at', f.speed⟩) := by
  rw [withBoundary_eq lines f g hf hg d stops]
  split_ifs with h1 h2 h2 <;> simp

theorem withBoundary_getLast? (lines : List Line) (f g : Line) (hf : lines.head? = some f)
    (hg : lines.getLast? = some g) (d : ℚ) (stops : List Stop) :
    (withBoundary lines d stops).getLast? =
      some (if g.b.at' < d - 100 then ⟨g.b.at' + 100, 0⟩ else ⟨g.b.at', g.speed⟩) := by
  have hmid2 : ∀ pre : List Stop,
      (pre ++ (((⟨f.a.at', f.speed⟩ : Stop) :: stops) ++ [(⟨g.b.at', g.speed⟩ : Stop)])).getLast? =
        some (⟨g.b.at', g.speed⟩ : Stop) := by
    intro pre
    rw [List.getLast?_append, List.getLast?_concat]
    rfl
  rw [withBoundary_eq lines f g hf hg d stops]
  split_ifs with h1 h2 h2
  · exact List.getLast?_concat _
  · rw [List.append_nil]
    exact hmid2 _
  · exact List.getLast?_concat _
  · rw [List.append_nil]
    exact hmid2 _

theorem withBoundary_pairwise (lines : List Line) (d : ℚ) (stops : List Stop)
    (f g : Line) (hf : lines.head? = some f) (hg : lines.getLast? = some g)
    (hs : stops.Pairwise stopLE)
    (hf_le : ∀ s ∈ stops, f.a.at' ≤ s.at') (hg_ge : ∀ s ∈ stops, s.at' ≤ g.b.at')
    (hfg : f.a.at' ≤ g.b.at') :
    (withBoundary lines d stops).Pairwise stopLE := by
  rw [withBoundary_eq lines f g hf hg d stops, ← List.chain'_iff_pairwise]
  have hmid : List.Chain' stopLE ((⟨f.a.at', f.speed⟩ :: stops) ++ [⟨g.b.at', g.speed⟩]) := by
    rw [List.chain'_append]
    refine ⟨?_, List.chain'_singleton _, ?_⟩
    · rw [List.chain'_cons']
      exact ⟨fun y hy => hf_le y (List.mem_of_mem_head? hy), hs.chain'⟩
    · intro x hx y hy
      simp only [List.head?_cons, Option.mem_def, Option.some.injEq] at hy
      subst hy
      cases stops with
      | nil =>
        simp only [List.getLast?_singleton, Option.mem_def, Option.some.injEq] at hx
        subst hx
        exact hfg
      | cons s0 rest =>
        rw [List.getLast?_cons_cons] at hx
        exact hg_ge x (List.mem_of_mem_getLast? hx)
  have hmidlast : ((⟨f.a.at', f.speed⟩ :: stops) ++ [⟨g.b.at', g.speed⟩] : List Stop).getLast? =
      some ⟨g.b.at', g.speed⟩ := List.getLast?_concat _
  rw [List.chain'_append]
  refine ⟨?_, ?_, ?_⟩
  · rw [List.chain'_append]
    refine ⟨?_, hmid, ?_⟩
    · split_ifs
      · exact List.chain'_singleton _
      · exact List.chain'_nil
    · intro x hx y hy
      split_ifs at hx with h1
      · simp only [List.getLast?_singleton, Option.mem_def, Option.some.injEq] at hx
        subst hx
        simp only [List.cons_append, List.head?_cons, Option.mem_def, Option.some.injEq] at hy
        subst hy
        show f.a.at' - 100 ≤ f.a.at'
        linarith
      · simp at hx
  · split_ifs
    · exact List.chain'_singleton _
    · exact List.chain'_nil
  · intro x hx y hy
    split_ifs at hy with h2
    · simp only [List.head?_cons, Option.mem_def, Option.some.injEq] at hy
      subst hy
      rw [List.getLast?_append, hmidlast] at hx
      simp only [Option.or_some, Option.mem_def, Option.some.injEq] at hx
      subst hx
      show g.b.at' ≤ g.b.at' + 100
      linarith
    · simp at hy

end BoundaryLemmas

section ExpandEndpointLemmas

theorem subSeg_a_eq (e : Line) (N : ℕ) : (subSeg e N 0).a = e.a := by
  show (⟨lerp e.a.at' e.b.at' ((0 : ℕ) / (N : ℚ)), lerp e.a.pos e.b.pos ((0 : ℕ) / (N : ℚ))⟩ :
    FunAction) = e.a
  norm_num [lerp_zero]

theorem subSeg_b_eq (e : Line) (k : ℕ) : (subSeg e (k + 1) k).b = e.b := by
  have hfrac : ((k : ℚ) + 1) / ((k + 1 : ℕ) : ℚ) = 1 := by
    push_cast
    rw [div_self]
    positivity
  show (⟨lerp e.a.at' e.b.at' (((k : ℚ) + 1) / ((k + 1 : ℕ) : ℚ)),
    lerp e.a.pos e.b.pos (((k : ℚ) + 1) / ((k + 1 : ℕ) : ℚ))⟩ : FunAction) = e.b
  rw [hfrac, lerp_one, lerp_one]

theorem expandLine_head?_a (e : Line) (h : e.a.at' < e.b.at') :
    (expandLine e).head?.map Line.a = some e.a := by
  have h0 : ¬e.b.at' - e.a.at' ≤ 0 := by linarith
  by_cases h1 : e.b.at' - e.a.at' < 2000
  · rw [expandLine_pass e h0 h1]
    rfl
  · rw [expandLine_split e h0 h1]
    obtain ⟨k, hk⟩ : ∃ k, subN (e.b.at' - e.a.at') = k + 1 := by
      have := subN_pos (show (2000 : ℚ) ≤ e.b.at' - e.a.at' by linarith [not_lt.mp h1])
      exact ⟨subN (e.b.at' - e.a.at') - 1, by omega⟩
    rw [hk, List.range_succ_eq_map, List.map_cons, List.head?_cons, Option.map_some',
      subSeg_a_eq]

theorem expandLine_getLast?_b (e : Line) (h : e.a.at' < e.b.at') :
    (expandLine e).getLast?.map Line.b = some e.b := by
  have h0 : ¬e.b.at' - e.a.at' ≤ 0 := by linarith
  by_cases h1 : e.b.at' - e.a.at' < 2000
  · rw [expandLine_pass e h0 h1]
    rfl
  · rw [expandLine_split e h0 h1]
    obtain ⟨k, hk⟩ : ∃ k, subN (e.b.at' - e.a.at') = k + 1 := by
      have := subN_pos (show (2000 : ℚ) ≤ e.b.at' - e.a.at' by linarith [not_lt.mp h1])
      exact ⟨subN (e.b.at' - e.a.at') - 1, by omega⟩
    rw [hk, List.getLast?_map, List.getLast?_range]
    simp only [Nat.succ_ne_zero, if_false, Option.map_some', Nat.add_sub_cancel]
    rw [subSeg_b_eq]

theorem expandLine_ne_nil (e : Line) (h : e.a.at' < e.b.at') : expandLine e ≠ [] := by
  intro hnil
  have := expandLine_head?_a e h
  rw [hnil] at this
  simp at this

theorem expandFlat_head?_a : ∀ l : List Line, (∀ e ∈ l, e.a.at' < e.b.at') →
    (l.flatMap expandLine).head?.map Line.a = l.head?.map Line.a
  | [], _ => rfl
  | e :: l', hpos => by
    have he : e.a.at' < e.b.at' := hpos e (List.mem_cons_self _ _)
    rcases hE : (expandLine e).head? with - | ⟨w⟩
    · exact absurd (List.head?_eq_none_iff.mp hE) (expandLine_ne_nil e he)
    · have hwa : w.a = e.a := by
        have := expandLine_head?_a e he
        rw [hE] at this
        simpa using this
      rw [List.flatMap_cons, List.head?_append, hE]
      simp [hwa]

theorem expandFlat_getLast?_b : ∀ l : List Line, (∀ e ∈ l, e.a.at' < e.b.at') →
    (l.flatMap expandLine).getLast?.map Line.b = l.getLast?.map Line.b
  | [], _ => rfl
  | [e], hpos => by
    rw [List.flatMap_cons, List.flatMap_nil, List.append_nil]
    rw [expandLine_getLast?_b e (hpos e (List.mem_cons_self _ _))]
    rfl
  | e :: e' :: l'', hpos => by
    have htail := expandFlat_getLast?_b (e' :: l'')
      (fun u hu => hpos u (List.mem_cons_of_mem _ hu))
    rcases hE : ((e' :: l'').flatMap expandLine).getLast? with - | ⟨w⟩
    · rw [hE] at htail
      rw [List.getLast?_eq_getLast (e' :: l'') (List.cons_ne_nil _ _)] at htail
      simp at htail
    · have hwb : w.b = ((e' :: l'').getLast (List.cons_ne_nil _ _)).b := by
        rw [hE] at htail
        rw [List.getLast?_eq_getLast (e' :: l'') (List.cons_ne_nil _ _)] at htail
        simpa using htail
      rw [List.flatMap_cons, List.getLast?_append, hE]
      simp only [Option.or_some, Option.map_some']
      rw [List.getLast?_cons_cons, List.getLast?_eq_getLast (e' :: l'') (List.cons_ne_nil _ _)]
      simp [hwb]

end ExpandEndpointLemmas

section PipelineLemmas

theorem gradient_noTriple (lines0 : List Line) (d : ℚ) :
    noTriple GradientStop.speed (toSvgBackgroundGradient lines0 d) := by
  simp only [toSvgBackgroundGradient]
  exact noTriple_map Stop.speed GradientStop.speed _ (fun s => rfl) _
    (noTriple_dedupeBy Stop.speed _)

theorem gradient_sorted (lines0 : List Line) (d : ℚ) (hd : 0 < d) (ht : TimeOrdered lines0) :
    ((toSvgBackgroundGradient lines0 d).map GradientStop.offsetFraction).Pairwise (· ≤ ·) := by
  simp only [toSvgBackgroundGradient]
  rw [mergeLines_eq_mergeRec]
  have hexp_good := expand_flat_good lines0
  have hexp_pw := expand_flat_pairwise lines0 (timeOrdered_pairwise ht)
  have hLgp := mergeRec_good_pairwise (lines0.flatMap expandLine) hexp_good hexp_pw
  have hstops : (withBoundary (mergeRec (lines0.flatMap expandLine)) d
      (midStops (mergeRec (lines0.flatMap expandLine)))).Pairwise stopLE := by
    rcases hL0 : mergeRec (lines0.flatMap expandLine) with - | ⟨x, rest⟩
    · exact List.Pairwise.nil
    · rw [← hL0]
      rw [hL0] at hLgp
      have hhead : (x :: rest).head? = some x := rfl
      have hgl : (x :: rest).getLast? =
          some ((x :: rest).getLast (List.cons_ne_nil _ _)) :=
        List.getLast?_eq_getLast _ _
      have hbounds := midStops_bounds (x :: rest) hLgp.1 hLgp.2 x
        ((x :: rest).getLast (List.cons_ne_nil _ _)) hhead hgl
      rw [hL0]
      refine withBoundary_pairwise (x :: rest) d (midStops (x :: rest)) x
        ((x :: rest).getLast (List.cons_ne_nil _ _)) hhead hgl
        (midStops_pairwise (x :: rest) hLgp.1 hLgp.2)
        (fun s hs => (hbounds s hs).1) (fun s hs => (hbounds s hs).2) ?_
      have hx_mem : x ∈ x :: rest := List.mem_cons_self _ _
      have hxg : x.a.at' ≤ x.b.at' := hLgp.1 x hx_mem
      have hxl : x.b.at' ≤ ((x :: rest).getLast (List.cons_ne_nil _ _)).b.at' :=
        pairwise_le_last (x :: rest) hLgp.1 hLgp.2 _ hgl x hx_mem
      exact hxg.trans hxl
  have hfinal : (dedupeBy Stop.speed (withBoundary (mergeRec (lines0.flatMap expandLine)) d
      (midStops (mergeRec (lines0.flatMap expandLine))))).Pairwise stopLE :=
    hstops.sublist (dedupeBy_sublist Stop.speed _)
  rw [List.map_map, List.pairwise_map]
  exact hfinal.imp fun hst => offset_mono hd hst

theorem gradient_head_last (lines0 : List Line) (d : ℚ)
    (hpos : ∀ e ∈ lines0, e.a.at' < e.b.at') (f g : Line)
    (hf : lines0.head? = some f) (hg : lines0.getLast? = some g) :
    ((toSvgBackgroundGradient lines0 d).map GradientStop.offsetFraction).head? =
      some (round2 (clamp01 ((if 100 < f.a.at' then f.a.at' - 100 else f.a.at') / d))) ∧
    ((toSvgBackgroundGradient lines0 d).map GradientStop.offsetFraction).getLast? =
      some (round2 (clamp01 ((if g.b.at' < d - 100 then g.b.at' + 100 else g.b.at') / d))) := by
  simp only [toSvgBackgroundGradient]
  rw [mergeLines_eq_mergeRec]
  have hha : (mergeRec (lines0.flatMap expandLine)).head?.map Line.a = some f.a := by
    rw [mergeRec_head?_a, expandFlat_head?_a lines0 hpos, hf]
    rfl
  have hhb : (mergeRec (lines0.flatMap expandLine)).getLast?.map Line.b = some g.b := by
    rw [mergeRec_getLast?_b, expandFlat_getLast?_b lines0 hpos, hg]
    rfl
  rcases hLh : (mergeRec (lines0.flatMap expandLine)).head? with - | ⟨f'⟩
  · rw [hLh] at hha
    simp at hha
  rcases hLg : (mergeRec (lines0.flatMap expandLine)).getLast? with - | ⟨g'⟩
  · rw [hLg] at hhb
    simp at hhb
  have hf'a : f'.a = f.a := by
    rw [hLh] at hha
    simpa using hha
  have hg'b : g'.b = g.b := by
    rw [hLg] at hhb
    simpa using hhb
  have hf'at : f'.a.at' = f.a.at' := by rw [hf'a]
  have hg'bt : g'.b.at' = g.b.at' := by rw [hg'b]
  constructor
  · rw [List.map_map, List.head?_map, dedupeBy_head?,
      withBoundary_head? _ f' g' hLh hLg d (midStops _)]
    simp only [Option.map_some']
    rw [hf'at]
    split_ifs <;> rfl
  · rw [List.map_map, List.getLast?_map, dedupeBy_getLast?,
      withBoundary_getLast? _ f' g' hLh hLg d (midStops _)]
    simp only [Option.map_some']
    rw [hg'bt]
    split_ifs <;> rfl

end PipelineLemmas

section StrokeLemmas

theorem toSvgLines_pairwise (lines : List Line) (durationMs width height lineWidth : ℚ) :
    (toSvgLines lines durationMs width height lineWidth).Pairwise
      fun s t : Stroke => s.speed ≤ t.speed := by
  unfold toSvgLines
  rw [List.pairwise_map]
  exact (List.sorted_insertionSort bySpeed lines).imp fun hxy => hxy

end StrokeLemmas

section EvalLemmas

theorem toSvgBackgroundGradient_def (lines0 : List Line) (d : ℚ) :
    toSvgBackgroundGradient lines0 d =
      (dedupeBy Stop.speed (withBoundary (mergeLines (lines0.flatMap expandLine)) d
        (midStops (mergeLines (lines0.flatMap expandLine))))).map fun s =>
        ⟨round2 (clamp01 (s.at' / d)), s.speed,
          if 100 ≤ s.speed then 1 else round2 (s.speed / 100)⟩ := rfl

theorem round2_zero : round2 0 = 0 := by
  rw [round2_eval 0 0 (by norm_num) (by norm_num)]
  norm_num

theorem round2_one : round2 1 = 1 := by
  rw [round2_eval 1 100 (by norm_num) (by norm_num)]
  norm_num

theorem round2_half : round2 (1 / 2) = 1 / 2 := by
  rw [round2_eval (1 / 2) 50 (by norm_num) (by norm_num)]
  norm_num

theorem clamp01_eq_self {x : ℚ} (h0 : 0 ≤ x) (h1 : x ≤ 1) : clamp01 x = x := by
  unfold clamp01
  rw [min_eq_right h1, max_eq_right h0]

end EvalLemmas

section ConcreteEvaluations

/-- End-to-end evaluation of the gradient synthesis on the claim C2 scenario:
one segment from 0 to 10000 at speed 50, total duration 10000. -/
theorem gradient_full_span_eval :
    toSvgBackgroundGradient [⟨⟨0, 0⟩, ⟨10000, 100⟩, 50⟩] 10000 =
      [⟨0, 50, 1 / 2⟩, ⟨1, 50, 1 / 2⟩] := by
  have hfl : Int.floor ((19 : ℚ) / 2) = 9 := Int.floor_eq_iff.mpr ⟨by norm_num, by norm_num⟩
  have hN : subN (10000 : ℚ) = 9 := by
    unfold subN
    rw [show ((10000 : ℚ) - 500) / 1000 = 19 / 2 from by norm_num, hfl]
    rfl
  have hB : expandLine ⟨⟨0, 0⟩, ⟨10000, 100⟩, 50⟩ =
      [⟨⟨0, 0⟩, ⟨10000/9, 100/9⟩, 50⟩,
       ⟨⟨10000/9, 100/9⟩, ⟨20000/9, 200/9⟩, 50⟩,
       ⟨⟨20000/9, 200/9⟩, ⟨10000/3, 100/3⟩, 50⟩,
       ⟨⟨10000/3, 100/3⟩, ⟨40000/9, 400/9⟩, 50⟩,
       ⟨⟨40000/9, 400/9⟩, ⟨50000/9, 500/9⟩, 50⟩,
       ⟨⟨50000/9, 500/9⟩, ⟨20000/3, 200/3⟩, 50⟩,
       ⟨⟨20000/3, 200/3⟩, ⟨70000/9, 700/9⟩, 50⟩,
       ⟨⟨70000/9, 700/9⟩, ⟨80000/9, 800/9⟩, 50⟩,
       ⟨⟨80000/9, 800/9⟩, ⟨10000, 100⟩, 50⟩] := by
    rw [expandLine_split _ (by norm_num) (by norm_num)]
    norm_num [hN, List.range_succ, subSeg, lerp]
  have h1 : ([⟨⟨0, 0⟩, ⟨10000, 100⟩, 50⟩] : List Line).flatMap expandLine =
      [⟨⟨0, 0⟩, ⟨10000/9, 100/9⟩, 50⟩,
       ⟨⟨10000/9, 100/9⟩, ⟨20000/9, 200/9⟩, 50⟩,
       ⟨⟨20000/9, 200/9⟩, ⟨10000/3, 100/3⟩, 50⟩,
       ⟨⟨10000/3, 100/3⟩, ⟨40000/9, 400/9⟩, 50⟩,
       ⟨⟨40000/9, 400/9⟩, ⟨50000/9, 500/9⟩, 50⟩,
       ⟨⟨50000/9, 500/9⟩, ⟨20000/3, 200/3⟩, 50⟩,
       ⟨⟨20000/3, 200/3⟩, ⟨70000/9, 700/9⟩, 50⟩,
       ⟨⟨70000/9, 700/9⟩, ⟨80000/9, 800/9⟩, 50⟩,
       ⟨⟨80000/9, 800/9⟩, ⟨10000, 100⟩, 50⟩] := by
    rw [List.flatMap_cons, List.flatMap_nil, List.append_nil, hB]
  rw [toSvgBackgroundGradient_def, h1]
  norm_num [mergeLines_cons₂, mergeLines_single, midStops, dedupeBy, dedupeGo, withBoundary,
    clamp01, round2_zero, round2_one, round2_half]

/-- End-to-end evaluation of the gradient synthesis on a single segment lying
in the middle of the duration (5000–5500ms of 10000ms): both fade stops are
synthesised, anchored at the segment's edges. -/
theorem gradient_late_segment_eval :
    toSvgBackgroundGradient [⟨⟨5000, 0⟩, ⟨5500, 100⟩, 50⟩] 10000 =
      [⟨49/100, 0, 0⟩, ⟨1/2, 50, 1/2⟩, ⟨11/20, 50, 1/2⟩, ⟨14/25, 0, 0⟩] := by
  have hr49 : round2 (49/100 : ℚ) = 49/100 := by
    rw [round2_eval _ 49 (by norm_num) (by norm_num)]
    norm_num
  have hr55 : round2 (11/20 : ℚ) = 11/20 := by
    rw [round2_eval _ 55 (by norm_num) (by norm_num)]
    norm_num
  have hr56 : round2 (14/25 : ℚ) = 14/25 := by
    rw [round2_eval _ 56 (by norm_num) (by norm_num)]
    norm_num
  have h1 : ([⟨⟨5000, 0⟩, ⟨5500, 100⟩, 50⟩] : List Line).flatMap expandLine =
      [⟨⟨5000, 0⟩, ⟨5500, 100⟩, 50⟩] := by
    rw [List.flatMap_cons, List.flatMap_nil, List.append_nil,
      expandLine_pass _ (by norm_num) (by norm_num)]
  rw [toSvgBackgroundGradient_def, h1]
  norm_num [mergeLines_single, midStops, dedupeBy, dedupeGo, withBoundary,
    clamp01, round2_zero, round2_half, hr49, hr55, hr56]

end ConcreteEvaluations

section Claims

/-- Claim C1: the specification demands that a non-positive `durationMs`
fail fast with an invalid-argument error rather than produce NaN offsets.
The source `toSvgBackgroundGradient` contains no duration validation at
all: at `durationMs = 0`, with the single segment (0,0)→(500,100) at speed
50, it still returns a two-stop gradient list.  In JavaScript the offsets
are `0/0 = NaN` and `500/0 = Infinity` (clamped to 1); in this total `ℚ`
embedding both divisions yield 0.  The code therefore contradicts the
spec's explicit error-handling design: this is evidence for the code bug,
not a confirmation of the claim. -/
theorem claim_C1_zero_duration_not_rejected :
    toSvgBackgroundGradient [⟨⟨0, 0⟩, ⟨500, 100⟩, 50⟩] 0 =
      [⟨0, 50, 1 / 2⟩, ⟨0, 50, 1 / 2⟩] := by
  have h1 : ([⟨⟨0, 0⟩, ⟨500, 100⟩, 50⟩] : List Line).flatMap expandLine =
      [⟨⟨0, 0⟩, ⟨500, 100⟩, 50⟩] := by
    rw [List.flatMap_cons, List.flatMap_nil, List.append_nil,
      expandLine_pass _ (by norm_num) (by norm_num)]
  rw [toSvgBackgroundGradient_def, h1]
  norm_num [mergeLines_single, midStops, dedupeBy, dedupeGo, withBoundary,
    clamp01, round2_zero, round2_half]

/-- Claim C2 counterexample: for the single segment (0,10000) at speed 50
with durationMs 10000 the claim asserts two stops at offsets ≈0.055
(= 1/18, the first sub-segment's midpoint) and ≈0.944 (= 17/18, the last
sub-segment's midpoint).  The actual offsets are 0 and 1 — each more than
0.01 away from the claimed value — because boundary synthesis also inserts
stops at times 0 and 10000 and the final redundancy filter then deletes
both midpoint stops (interior stops of an all-speed-50 run). -/
theorem claim_C2_counterexample :
    (toSvgBackgroundGradient [⟨⟨0, 0⟩, ⟨10000, 100⟩, 50⟩] 10000).map
        GradientStop.offsetFraction = [0, 1] ∧
    ¬|(0 : ℚ) - 1/18| < 1/100 ∧ ¬|(1 : ℚ) - 17/18| < 1/100 := by
  refine ⟨by rw [gradient_full_span_eval]; rfl, ?_, ?_⟩
  · rw [show (0 : ℚ) - 1/18 = -(1/18) from by norm_num, abs_neg,
      abs_of_nonneg (by norm_num : (0 : ℚ) ≤ 1/18)]
    norm_num
  · rw [show (1 : ℚ) - 17/18 = 1/18 from by norm_num,
      abs_of_nonneg (by norm_num : (0 : ℚ) ≤ 1/18)]
    norm_num

/-- Claim C2 (amended): the scenario produces exactly 2 stops, both with
speed 50 and opacity 0.5 as claimed, but at offsets 0 and 1 — the first
segment's start and the last segment's end, unshifted/pushed by boundary
synthesis — rather than at the sub-segment midpoints ≈0.055 and ≈0.944,
which the final redundancy filter removes. -/
theorem claim_C2_amended :
    toSvgBackgroundGradient [⟨⟨0, 0⟩, ⟨10000, 100⟩, 50⟩] 10000 =
      [⟨0, 50, 1 / 2⟩, ⟨1, 50, 1 / 2⟩] :=
  gradient_full_span_eval

/-- Claim C3 counterexample: for a single segment 5000–5500ms at speed 50
with durationMs 10000, the first output stop sits at offset 0.49 (time
4900ms, the fade-in anchored 100ms before the segment), which is not within
the 100ms padding window of 0 (offset ≤ 0.01), and the last stop sits at
offset 0.56, not within the 100ms padding window of 1 (offset ≥ 0.99). -/
theorem claim_C3_counterexample :
    ((toSvgBackgroundGradient [⟨⟨5000, 0⟩, ⟨5500, 100⟩, 50⟩] 10000).map
        GradientStop.offsetFraction).head? = some (49/100) ∧
    ¬((49 : ℚ)/100 ≤ 100/10000) ∧
    ((toSvgBackgroundGradient [⟨⟨5000, 0⟩, ⟨5500, 100⟩, 50⟩] 10000).map
        GradientStop.offsetFraction).getLast? = some (14/25) ∧
    ¬(1 - (100 : ℚ)/10000 ≤ 14/25) := by
  refine ⟨by rw [gradient_late_segment_eval]; rfl, by norm_num,
    by rw [gradient_late_segment_eval]; rfl, by norm_num⟩

/-- Claim C3 (amended): for every non-empty input of positive-span segments,
the first output stop lies within the 100ms padding window of the FIRST
SEGMENT'S START — exactly at the start when it is at most 100ms, otherwise a
zero-speed fade stop 100ms before it — and the last stop lies within the
100ms window after the LAST SEGMENT'S END — exactly at the end when it is
within 100ms of the total duration, otherwise a zero-speed fade stop 100ms
after it.  The padding windows are anchored at the segment list's temporal
edges, not at times 0 and durationMs as the claim stated. -/
theorem claim_C3_amended (lines0 : List Line) (d : ℚ)
    (hpos : ∀ e ∈ lines0, e.a.at' < e.b.at') (f g : Line)
    (hf : lines0.head? = some f) (hg : lines0.getLast? = some g) :
    ((toSvgBackgroundGradient lines0 d).map GradientStop.offsetFraction).head? =
      some (round2 (clamp01 ((if 100 < f.a.at' then f.a.at' - 100 else f.a.at') / d))) ∧
    ((toSvgBackgroundGradient lines0 d).map GradientStop.offsetFraction).getLast? =
      some (round2 (clamp01 ((if g.b.at' < d - 100 then g.b.at' + 100 else g.b.at') / d))) :=
  gradient_head_last lines0 d hpos f g hf hg

/-- Claim C3 witness: the amended statement instantiated on the concrete
segment 5000–5500ms at speed 50 with durationMs 10000. -/
theorem claim_C3_witness :
    ((toSvgBackgroundGradient [⟨⟨5000, 0⟩, ⟨5500, 100⟩, 50⟩] 10000).map
        GradientStop.offsetFraction).head? =
      some (round2 (clamp01 ((if (100 : ℚ) < 5000 then (5000 : ℚ) - 100 else 5000) / 10000))) ∧
    ((toSvgBackgroundGradient [⟨⟨5000, 0⟩, ⟨5500, 100⟩, 50⟩] 10000).map
        GradientStop.offsetFraction).getLast? =
      some (round2 (clamp01 ((if (5500 : ℚ) < 10000 - 100 then (5500 : ℚ) + 100 else 5500)
        / 10000))) := by
  refine claim_C3_amended [⟨⟨5000, 0⟩, ⟨5500, 100⟩, 50⟩] 10000 ?_
    ⟨⟨5000, 0⟩, ⟨5500, 100⟩, 50⟩ ⟨⟨5000, 0⟩, ⟨5500, 100⟩, 50⟩ rfl rfl
  intro e he
  rcases List.mem_cons.mp he with rfl | he
  · norm_num
  · simp at he

/-- Claim C4: the interval expander drops segments of non-positive span,
passes spans of at most 2000ms through unchanged, and replaces longer
segments by exactly `subN span = ⌊(span - 500) / 1000⌋` sub-segments whose
endpoints interpolate the original keyframes at fractions `i/N` and
`(i+1)/N`, the speed inherited unchanged.  At span exactly 2000 the source
takes the splitting branch with `N = 1`, whose single sub-segment
interpolates at fractions 0 and 1 and hence equals the original segment
value for value, so the `≤ 2000` pass-through reading of the claim holds. -/
theorem claim_C4_expander (e : Line) :
    expandLine e =
      if e.b.at' - e.a.at' ≤ 0 then []
      else if e.b.at' - e.a.at' ≤ 2000 then [e]
      else (List.range (subN (e.b.at' - e.a.at'))).map (subSeg e (subN (e.b.at' - e.a.at'))) := by
  by_cases h0 : e.b.at' - e.a.at' ≤ 0
  · rw [if_pos h0, expandLine_nonpos e h0]
  · rw [if_neg h0]
    by_cases h2 : e.b.at' - e.a.at' ≤ 2000
    · rw [if_pos h2]
      by_cases h1 : e.b.at' - e.a.at' < 2000
      · exact expandLine_pass e h0 h1
      · have hlen : e.b.at' - e.a.at' = 2000 := le_antisymm h2 (not_lt.mp h1)
        rw [expandLine_split e h0 h1]
        have hsub : subN (e.b.at' - e.a.at') = 1 := by
          rw [hlen]
          unfold subN
          rw [show ((2000 : ℚ) - 500) / 1000 = 3 / 2 from by norm_num,
            Int.floor_eq_iff.mpr
              (by constructor <;> norm_num : ((1 : ℤ) : ℚ) ≤ 3 / 2 ∧ (3 : ℚ) / 2 < 1 + 1)]
          rfl
        rw [hsub]
        show [subSeg e 1 0] = [e]
        have heq : subSeg e 1 0 = e := by
          show (⟨⟨lerp e.a.at' e.b.at' (((0 : ℕ) : ℚ) / ((1 : ℕ) : ℚ)),
            lerp e.a.pos e.b.pos (((0 : ℕ) : ℚ) / ((1 : ℕ) : ℚ))⟩,
            ⟨lerp e.a.at' e.b.at' ((((0 : ℕ) : ℚ) + 1) / ((1 : ℕ) : ℚ)),
            lerp e.a.pos e.b.pos ((((0 : ℕ) : ℚ) + 1) / ((1 : ℕ) : ℚ))⟩, e.speed⟩ : Line) = e
          conv_rhs => rw [show e = ⟨⟨e.a.at', e.a.pos⟩, ⟨e.b.at', e.b.pos⟩, e.speed⟩ from rfl]
          norm_num [lerp]
        rw [heq]
    · rw [if_neg h2]
      exact expandLine_split e h0 fun hc => h2 (le_of_lt hc)

/-- Claim C5: the interval merger, scanning left to right (embedded
index-faithfully by `mergeLoop`/`mergeLines`), replaces an adjacent pair
whose combined span is under 1000ms by the single merged segment carrying
the duration-weighted average speed, and re-examines the merged segment
against its new right neighbour (the merged segment is re-fed to the same
scan position, so merges cascade); an adjacent pair not under 1000ms lets
the scan advance by one.  Merging a 400ms segment of speed 20 with a 400ms
segment of speed 60 yields speed (20·400 + 60·400)/800 = 40 exactly. -/
theorem claim_C5_merger :
    (∀ (x y : Line) (rest : List Line),
      mergeLines (x :: y :: rest) =
        if y.b.at' - x.a.at' < 1000 then mergeLines (mergedLine x y :: rest)
        else x :: mergeLines (y :: rest)) ∧
    (∀ x y : Line, (mergedLine x y).speed =
      (x.speed * (x.b.at' - x.a.at') + y.speed * (y.b.at' - y.a.at')) /
        ((x.b.at' - x.a.at') + (y.b.at' - y.a.at'))) ∧
    (mergedLine ⟨⟨0, 0⟩, ⟨400, 100⟩, 20⟩ ⟨⟨400, 100⟩, ⟨800, 0⟩, 60⟩).speed = 40 ∧
    mergeLines [⟨⟨0, 0⟩, ⟨400, 100⟩, 20⟩, ⟨⟨400, 100⟩, ⟨800, 0⟩, 60⟩] =
      [⟨⟨0, 0⟩, ⟨800, 0⟩, 40⟩] := by
  refine ⟨mergeLines_cons₂, fun x y => rfl, by norm_num [mergedLine], ?_⟩
  rw [mergeLines_cons₂]
  norm_num [mergedLine, mergeLines_single]

/-- Claim C6: the redundancy filter (drop an entry whose speed equals both
original neighbours' speeds, keep first and last) is idempotent on every
list of speed-tagged stop entries. -/
theorem claim_C6_idempotent (l : List Stop) :
    dedupeBy Stop.speed (dedupeBy Stop.speed l) = dedupeBy Stop.speed l :=
  dedupeBy_idempotent Stop.speed l

/-- Claim C7: for every input segment list and duration, the gradient-stop
list returned by the synthesis contains no three consecutive stops sharing
the same speed. -/
theorem claim_C7_no_triple (lines0 : List Line) (d : ℚ) :
    noTriple GradientStop.speed (toSvgBackgroundGradient lines0 d) :=
  gradient_noTriple lines0 d

/-- Claim C8: for every time-ordered input segment list and positive
duration, the output gradient stops' offset fractions are non-decreasing
from first to last. -/
theorem claim_C8_monotone (lines0 : List Line) (d : ℚ) (hd : 0 < d) (ht : TimeOrdered lines0) :
    ((toSvgBackgroundGradient lines0 d).map GradientStop.offsetFraction).Pairwise (· ≤ ·) :=
  gradient_sorted lines0 d hd ht

/-- Claim C8 witness: monotone offsets on a concrete two-segment input. -/
theorem claim_C8_witness :
    (0 : ℚ) < 2000 ∧
    TimeOrdered [⟨⟨0, 0⟩, ⟨500, 100⟩, 20⟩, ⟨⟨500, 100⟩, ⟨1200, 0⟩, 60⟩] ∧
    ((toSvgBackgroundGradient [⟨⟨0, 0⟩, ⟨500, 100⟩, 20⟩, ⟨⟨500, 100⟩, ⟨1200, 0⟩, 60⟩]
      2000).map GradientStop.offsetFraction).Pairwise (· ≤ ·) := by
  have hd : (0 : ℚ) < 2000 := by norm_num
  have ht : TimeOrdered [⟨⟨0, 0⟩, ⟨500, 100⟩, 20⟩, ⟨⟨500, 100⟩, ⟨1200, 0⟩, 60⟩] := by
    constructor
    · intro e he
      rcases List.mem_cons.mp he with rfl | he
      · norm_num
      · rcases List.mem_cons.mp he with rfl | he
        · norm_num
        · simp at he
    · rw [List.chain'_cons]
      exact ⟨by norm_num, List.chain'_singleton _⟩
  exact ⟨hd, ht, claim_C8_monotone _ 2000 hd ht⟩

/-- Claim C9: the stroke-command list emitted by the geometry mapper is
sorted ascending by segment speed regardless of the segments' time order;
in particular time-ordered input speeds [10, 90, 5] come out as
[5, 10, 90]. -/
theorem claim_C9_paint_order :
    (∀ (lines : List Line) (durationMs width height lineWidth : ℚ),
      (toSvgLines lines durationMs width height lineWidth).Pairwise
        fun s t : Stroke => s.speed ≤ t.speed) ∧
    (toSvgLines [⟨⟨0, 0⟩, ⟨100, 100⟩, 10⟩, ⟨⟨100, 100⟩, ⟨200, 0⟩, 90⟩,
      ⟨⟨200, 0⟩, ⟨300, 100⟩, 5⟩] 300 100 50 1).map Stroke.speed = [5, 10, 90] := by
  refine ⟨toSvgLines_pairwise, ?_⟩
  norm_num [toSvgLines, List.insertionSort, List.orderedInsert, bySpeed]

/-- Claim C10: the redundancy filter (both instances are the one generic
`dedupeBy`, whose keep/drop decision reads the neighbours of the ORIGINAL
list) collapses every maximal run of consecutive equal-speed entries to its
first and last entries — a singleton run is kept whole — and consequently
every run in its output has length at most 2. -/
theorem claim_C10_runs {α : Type} (sp : α → ℚ) (l : List α) :
    dedupeBy sp l = ((runs sp l).map collapseRun).flatten ∧
    List.Forall (fun r => r.length ≤ 2) (runs sp (dedupeBy sp l)) :=
  ⟨dedupeBy_eq_runs sp l, runs_length_le_two sp (dedupeBy sp l) (noTriple_dedupeBy sp l)⟩

end Claims
